import Mathlib

/-!
Shallow embedding of `GAE_model/mask.py` (stochastic graph-masking
augmentations): `mask_node_features`, `mask_path`, `mask_edge` and the
`MaskPath.forward` / `MaskEdge.forward` wrappers.

Modelling conventions:
* An edge index (a 2×E integer tensor) is a list of its columns,
  `List (ℕ × ℕ)`; column `(u, v)` is the directed edge `u → v`.
* Probabilities are rationals `ℚ` (the float arithmetic of the source on
  the values used here is exact).
* Python exceptions become an explicit error type: `ValueError` raised for
  out-of-range probabilities is `PyError.invalidArgument`, a failing
  `assert` is `PyError.assertionError`, and an out-of-bounds tensor index
  in `edge_mask[e_id] = False` is `PyError.indexError`.
* Randomness is passed in as an explicit realization: the outcome of
  `torch.randperm(num_nodes)` (field `perm`), of the per-edge Bernoulli
  `torch.rand(E) <= p` (field `edgeSel`), and a stream `step : ℕ → ℕ`
  whose k-th value (mod the neighbour count) is the outcome of the k-th
  `torch.randint(neighbors.size(0), (1,))` call.  Universal claims are
  proved for every realization; concrete evaluations use explicit ones.
-/

namespace SDMGAE

/-- Columns of a 2×E edge-index tensor. -/
abbrev EdgeIndex := List (ℕ × ℕ)

/-- Python exception kinds observable from `mask.py`. -/
inductive PyError where
  | invalidArgument : PyError  -- `raise ValueError(...)`
  | assertionError : PyError   -- failing `assert`
  | indexError : PyError       -- out-of-bounds tensor indexing
deriving DecidableEq, Repr

/-- The second component returned by `mask_path`: the all-true boolean edge
mask (evaluation bypass, line 51) or the masked edge columns
`edge_index[:, ~edge_mask]` (training path, line 89). -/
inductive MaskOut where
  | mask (m : List Bool) : MaskOut
  | edges (e : EdgeIndex) : MaskOut
deriving DecidableEq, Repr

deriving instance DecidableEq for Except

/-- One realization of all random draws consumed by `mask_path`. -/
structure PathRand where
  perm : List ℕ          -- outcome of `torch.randperm(num_nodes)`
  edgeSel : List Bool    -- outcome of `torch.rand(row.size(0)) <= p`
  step : ℕ → ℕ           -- stream of `torch.randint` outcomes for walk steps

/-- Boolean-mask column selection `t[:, m]` on a list of columns:
keeps, in order, the entries whose mask bit is true. -/
def maskSel : List α → List Bool → List α
  | [], _ => []
  | _, [] => []
  | a :: l, b :: m => if b then a :: maskSel l m else maskSel l m

/-- `torch.Tensor.repeat(w)` on a 1-D tensor: the list tiled `w` times. -/
def repeatList (l : List α) (w : ℕ) : List α :=
  (List.replicate w l).flatten

/-- Python's built-in `round` (round half to even) on an exact rational.
With `f = ⌊q⌋` the fractional part `q - f` equals
`(q.num - f * q.den) / q.den` with positive denominator, so comparing it
against `1/2` is the integer comparison of `2 * (q.num - f * q.den)`
against `q.den`. -/
def pyRound (q : ℚ) : ℤ :=
  let f : ℤ := ⌊q⌋
  let r2 : ℤ := 2 * (q.num - f * q.den)
  if r2 < (q.den : ℤ) then f
  else if (q.den : ℤ) < r2 then f + 1
  else if f % 2 = 0 then f else f + 1

/-- `round(num_nodes * p)` of line 63, clamped to `ℕ` for list slicing;
the product `num_nodes * p` is formed as the exact rational
`mkRat (num_nodes * p.num) p.den` (see `mkRat_nat_mul`). -/
def startCount (num_nodes : ℕ) (p : ℚ) : ℕ :=
  (pyRound (mkRat ((num_nodes : ℤ) * p.num) p.den)).toNat

/-- `torch_geometric.utils.num_nodes.maybe_num_nodes`: the given node count
if provided, else `edge_index.max() + 1` (0 for an empty edge index). -/
def maybeNumNodes (ei : EdgeIndex) : Option ℕ → ℕ
  | some n => n
  | none =>
    if ei = [] then 0
    else (ei.map (fun e => max e.1 e.2)).foldl max 0 + 1

/-- Lexicographic order on edge columns; for node ids below `num_nodes`
this is exactly the sort key `row * num_nodes + col` that
`sort_edge_index` uses. -/
def pairLe (a b : ℕ × ℕ) : Bool :=
  decide (a.1 < b.1 ∨ (a.1 = b.1 ∧ a.2 ≤ b.2))

/-- Insert a column into a `pairLe`-sorted list of columns. -/
def insertPair (a : ℕ × ℕ) : EdgeIndex → EdgeIndex
  | [] => [a]
  | b :: l => if pairLe a b then a :: b :: l else b :: insertPair a l

/-- Insertion sort of edge columns by `pairLe`. -/
def sortPairs : EdgeIndex → EdgeIndex
  | [] => []
  | a :: l => insertPair a (sortPairs l)

/-- `torch_geometric.utils.sort_edge_index`: columns sorted by source node
(then target). -/
def sortEdgeIndex (ei : EdgeIndex) : EdgeIndex := sortPairs ei

/-- `torch_geometric.utils.to_undirected`: append the reversed columns,
then coalesce (sort and remove duplicate columns). -/
def to_undirected (ei : EdgeIndex) : EdgeIndex :=
  (sortPairs (ei ++ ei.map Prod.swap)).dedup

/-- `rowptr`: cumulative out-degree array of lines 65–67.  `rowptrFun row u`
is the number of edges whose source is `< u`, which for a source-sorted
`row` equals `rowptr[u]` (cumulative sum of `degree(row, num_nodes)`). -/
def rowptrFun (row : List ℕ) (u : ℕ) : ℕ :=
  row.countP (fun s => decide (s < u))

/-- `mask_edge` (lines 92–99): validate `p`, Bernoulli-sample a boolean mask
(realization `bern`), return `(edge_index[:, ~mask], edge_index[:, mask])`. -/
def mask_edge (ei : EdgeIndex) (p : ℚ) (bern : List Bool) :
    Except PyError (EdgeIndex × EdgeIndex) :=
  if p < 0 ∨ 1 < p then .error .invalidArgument
  else .ok (maskSel ei (bern.map Bool.not), maskSel ei bern)

/-- `mask_node_features` (lines 16–31): validate `q`, Bernoulli-sample a
row mask (realization `bern`), zero the masked rows of a copy of `x`. -/
def mask_node_features (x : List (List ℚ)) (q : ℚ) (bern : List Bool) :
    Except PyError (List (List ℚ)) :=
  if q < 0 ∨ 1 < q then .error .invalidArgument
  else .ok ((x.zip bern).map fun rb => if rb.2 then rb.1.map (fun _ => 0) else rb.1)

/-- Inner loop of the manual random walk (lines 73–81), returning the
`e_id` entries the walk appends and the advanced randomness counter.
Starting at `u` with `fuel` steps left: take the neighbour slice
`col[rowptr[u] : rowptr[u+1]]`; if it is empty break; else choose a
neighbour (`step k` mod the slice length realizes `torch.randint`),
append `current_node` to `e_id` — the source code appends the NODE id,
not the edge's position — and advance. -/
def walkEIds (col : List ℕ) (ptr : ℕ → ℕ) (step : ℕ → ℕ) :
    ℕ → ℕ → ℕ → List ℤ × ℕ
  | 0, _, k => ([], k)
  | fuel + 1, u, k =>
    let nb := (col.drop (ptr u)).take (ptr (u + 1) - ptr u)
    if nb.length = 0 then ([], k)
    else
      let v := nb.getD (step k % nb.length) 0
      let r := walkEIds col ptr step fuel v (k + 1)
      ((u : ℤ) :: r.1, r.2)

/-- The `n_id` entries of the same walk: each node stepped to (line 79).
Consumes the randomness counter exactly as `walkEIds` does. -/
def walkNIds (col : List ℕ) (ptr : ℕ → ℕ) (step : ℕ → ℕ) :
    ℕ → ℕ → ℕ → List ℕ × ℕ
  | 0, _, k => ([], k)
  | fuel + 1, u, k =>
    let nb := (col.drop (ptr u)).take (ptr (u + 1) - ptr u)
    if nb.length = 0 then ([], k)
    else
      let v := nb.getD (step k % nb.length) 0
      let r := walkNIds col ptr step fuel v (k + 1)
      (v :: r.1, r.2)

/-- All `e_id` entries collected over a sequence of walk start nodes,
with the end-of-walk marker `-1` appended after each walk (line 82). -/
def runWalks (col : List ℕ) (ptr : ℕ → ℕ) (step : ℕ → ℕ) (len : ℕ) :
    List ℕ → ℕ → List ℤ
  | [], _ => []
  | s :: rest, k =>
    let r := walkEIds col ptr step len s k
    r.1 ++ (-1) :: runWalks col ptr step len rest r.2

/-- All `n_id` entries collected over a sequence of walk start nodes. -/
def runWalkNIds (col : List ℕ) (ptr : ℕ → ℕ) (step : ℕ → ℕ) (len : ℕ) :
    List ℕ → ℕ → List ℕ
  | [], _ => []
  | s :: rest, k =>
    let r := walkNIds col ptr step len s k
    r.1 ++ runWalkNIds col ptr step len rest r.2

/-- The `start` tensor of walk start nodes (lines 59–63), built from the
source-sorted edge index: in `edge` mode the sources of the
Bernoulli-sampled edges, in `node` mode `randperm(num_nodes)[:round(num_nodes*p)]`;
either list tiled `walks_per_node` times by `.repeat`. -/
def pathStarts (sorted : EdgeIndex) (p : ℚ) (walks_per_node num_nodes : ℕ)
    (start : String) (r : PathRand) : List ℕ :=
  if start = "edge" then
    repeatList (maskSel (sorted.map Prod.fst) r.edgeSel) walks_per_node
  else
    repeatList (r.perm.take (startCount num_nodes p)) walks_per_node

/-- The sequence of walk start nodes actually iterated by the walk loop of
lines 71–72: the outer `for _ in range(walks_per_node)` traverses the
(already `walks_per_node`-times tiled) `start` tensor once per iteration. -/
def pathWalkSeq (starts : List ℕ) (walks_per_node : ℕ) : List ℕ :=
  (List.replicate walks_per_node starts).flatten

/-- Line 56: the edge index as the walk code sees it — sorted by source
unless the caller promised it already is. -/
def pathSorted (ei : EdgeIndex) (is_sorted : Bool) : EdgeIndex :=
  if is_sorted then ei else sortEdgeIndex ei

/-- The filtered `e_id` tensor of lines 69–86: run every walk, drop the
`-1` end-of-walk markers, leaving the (node-id-valued!) entries that
line 87 uses to index `edge_mask`. -/
def pathEIds (ei : EdgeIndex) (p : ℚ) (walks_per_node walk_length : ℕ)
    (num_nodes : Option ℕ) (start : String) (is_sorted : Bool)
    (r : PathRand) : List ℕ :=
  let n := maybeNumNodes ei num_nodes
  let sorted := pathSorted ei is_sorted
  let row := sorted.map Prod.fst
  let col := sorted.map Prod.snd
  let starts := pathStarts sorted p walks_per_node n start r
  let seq := pathWalkSeq starts walks_per_node
  ((runWalks col (rowptrFun row) r.step walk_length seq 0).filter
    (fun i => decide (i ≠ -1))).map Int.toNat

/-- Lines 87–89: `edge_mask[e_id] = False` followed by the partition
`(edge_index[:, edge_mask], edge_index[:, ~edge_mask])`.  PyTorch raises
`IndexError` if any index in `e_id` is out of bounds for `edge_mask`. -/
def applyEdgeMask (sorted : EdgeIndex) (edge_mask : List Bool)
    (eids : List ℕ) : Except PyError (EdgeIndex × MaskOut) :=
  if eids.all (fun i => decide (i < edge_mask.length)) then
    let m := eids.foldl (fun m i => m.set i false) edge_mask
    .ok (maskSel sorted m, .edges (maskSel sorted (m.map Bool.not)))
  else .error .indexError

/-- `mask_path` (lines 37–89): validate `p` (line 42), assert the start
mode (line 46), allocate the all-true edge mask of length `E` (lines
47–48), bypass when not training or `p == 0` (lines 50–51), else run the
walks and partition the sorted edge index by the updated mask. -/
def mask_path (ei : EdgeIndex) (p : ℚ) (walks_per_node walk_length : ℕ)
    (num_nodes : Option ℕ) (start : String) (is_sorted training : Bool)
    (r : PathRand) : Except PyError (EdgeIndex × MaskOut) :=
  if p < 0 ∨ 1 < p then .error .invalidArgument
  else if ¬(start = "node" ∨ start = "edge") then .error .assertionError
  else if training = false ∨ p = 0 then
    .ok (ei, .mask (List.replicate ei.length true))
  else
    applyEdgeMask (pathSorted ei is_sorted) (List.replicate ei.length true)
      (pathEIds ei p walks_per_node walk_length num_nodes start is_sorted r)

/-- The multiset of nodes occupied during the generated walks: every walk
start node (loop variable `node`, line 72) together with every node
stepped to (`n_id`, line 79), computed from the same walk pipeline as
`mask_path`. -/
def pathVisitedNodes (ei : EdgeIndex) (p : ℚ)
    (walks_per_node walk_length : ℕ) (num_nodes : Option ℕ)
    (start : String) (is_sorted : Bool) (r : PathRand) : List ℕ :=
  let n := maybeNumNodes ei num_nodes
  let sorted := pathSorted ei is_sorted
  let row := sorted.map Prod.fst
  let col := sorted.map Prod.snd
  let starts := pathStarts sorted p walks_per_node n start r
  let seq := pathWalkSeq starts walks_per_node
  seq ++ runWalkNIds col (rowptrFun row) r.step walk_length seq 0

/-- `MaskPath.forward` (lines 131–139): call `mask_path` with the stored
configuration (`is_sorted` and `training` at their defaults `False` /
`True`), then symmetrize the remaining edges when `undirected` is set. -/
def MaskPathForward (p : ℚ) (walks_per_node walk_length : ℕ)
    (start : String) (num_nodes : Option ℕ) (undirected : Bool)
    (ei : EdgeIndex) (r : PathRand) : Except PyError (EdgeIndex × MaskOut) :=
  (mask_path ei p walks_per_node walk_length num_nodes start false true r).map
    fun rm => (if undirected then to_undirected rm.1 else rm.1, rm.2)

/-- `MaskEdge.forward` (lines 152–156): call `mask_edge`, then symmetrize
the remaining edges when `undirected` is set. -/
def MaskEdgeForward (p : ℚ) (undirected : Bool) (ei : EdgeIndex)
    (bern : List Bool) : Except PyError (EdgeIndex × EdgeIndex) :=
  (mask_edge ei p bern).map
    fun rm => (if undirected then to_undirected rm.1 else rm.1, rm.2)

/-- Deterministic endpoints of Bernoulli sampling: `torch.bernoulli` with
probability 0 always returns 0 and with probability 1 always returns 1,
so a realization of the sampled mask is constrained at `p = 0` / `p = 1`. -/
def validBernoulli (p : ℚ) (bs : List Bool) : Prop :=
  (p = 0 → ∀ b ∈ bs, b = false) ∧ (p = 1 → ∀ b ∈ bs, b = true)

/-! ### Helper lemmas -/

/-- The exact rational formed in `startCount` is the product
`num_nodes * p` of line 63. -/
theorem mkRat_nat_mul (n : ℕ) (p : ℚ) :
    mkRat ((n : ℤ) * p.num) p.den = (n : ℚ) * p := by
  rw [Rat.mkRat_eq_div]
  push_cast
  rw [mul_div_assoc, Rat.num_div_den]

theorem maskSel_subset {a : α} : ∀ {l : List α} {m : List Bool},
    a ∈ maskSel l m → a ∈ l
  | [], _, h => by simp [maskSel] at h
  | _ :: _, [], h => by simp [maskSel] at h
  | x :: l, b :: m, h => by
    by_cases hb : b = true
    · subst hb
      simp only [maskSel, if_true, List.mem_cons] at h
      rcases h with h | h
      · exact h ▸ List.mem_cons_self x l
      · exact List.mem_cons_of_mem _ (maskSel_subset h)
    · simp only [Bool.not_eq_true] at hb
      subst hb
      simp only [maskSel, Bool.false_eq_true, if_false] at h
      exact List.mem_cons_of_mem _ (maskSel_subset h)

theorem maskSel_append_not_perm : ∀ (l : List α) (m : List Bool),
    m.length = l.length →
    (maskSel l m ++ maskSel l (m.map Bool.not)).Perm l
  | [], [], _ => by simp [maskSel]
  | [], _ :: _, h => by simp at h
  | _ :: _, [], h => by simp at h
  | a :: l, b :: m, h => by
    have ih := maskSel_append_not_perm l m (by simpa using h)
    cases b
    · simpa [maskSel] using (List.perm_middle.trans (ih.cons a))
    · simpa [maskSel] using ih.cons a

theorem maskSel_not_disjoint {a : α} : ∀ {l : List α} {m : List Bool},
    l.Nodup → a ∈ maskSel l m → a ∉ maskSel l (m.map Bool.not)
  | [], _, _, h => by simp [maskSel] at h
  | _ :: _, [], _, h => by simp [maskSel] at h
  | x :: l, b :: m, hnd, h => by
    have hx : x ∉ l := (List.nodup_cons.mp hnd).1
    have hl : l.Nodup := (List.nodup_cons.mp hnd).2
    cases b
    · simp only [maskSel, Bool.false_eq_true, if_false] at h
      simp only [List.map_cons, Bool.not_false, maskSel, if_true, List.mem_cons]
      rintro (rfl | hmem)
      · exact hx (maskSel_subset h)
      · exact maskSel_not_disjoint hl h hmem
    · simp only [maskSel, if_true, List.mem_cons] at h
      simp only [List.map_cons, Bool.not_true, maskSel, Bool.false_eq_true, if_false]
      rcases h with rfl | h
      · exact fun hmem => hx (maskSel_subset hmem)
      · exact maskSel_not_disjoint hl h

theorem maskSel_all_false : ∀ (l : List α) (m : List Bool),
    (∀ b ∈ m, b = false) → maskSel l m = []
  | [], m, _ => by cases m <;> simp [maskSel]
  | _ :: _, [], _ => by simp [maskSel]
  | a :: l, b :: m, h => by
    have hb : b = false := h b (List.mem_cons_self b m)
    subst hb
    simpa [maskSel] using
      maskSel_all_false l m (fun b hb => h b (List.mem_cons_of_mem _ hb))

theorem maskSel_all_true : ∀ (l : List α) (m : List Bool),
    m.length = l.length → (∀ b ∈ m, b = true) → maskSel l m = l
  | [], [], _, _ => by simp [maskSel]
  | [], _ :: _, h, _ => by simp at h
  | _ :: _, [], h, _ => by simp at h
  | a :: l, b :: m, h, hall => by
    have hb : b = true := hall b (List.mem_cons_self b m)
    subst hb
    simp only [maskSel, if_true, List.cons.injEq, true_and]
    exact maskSel_all_true l m (by simpa using h)
      (fun b hb => hall b (List.mem_cons_of_mem _ hb))

theorem foldl_set_length : ∀ (ids : List ℕ) (m : List Bool),
    (ids.foldl (fun m i => m.set i false) m).length = m.length
  | [], _ => rfl
  | i :: ids, m => by
    simpa [List.foldl_cons, List.length_set] using
      foldl_set_length ids (m.set i false)

theorem insertPair_perm (a : ℕ × ℕ) : ∀ l : EdgeIndex,
    (insertPair a l).Perm (a :: l)
  | [] => List.Perm.refl _
  | b :: l => by
    by_cases h : pairLe a b = true
    · simp [insertPair, h]
    · simp only [insertPair, h, Bool.false_eq_true, if_false]
      exact ((insertPair_perm a l).cons b).trans (List.Perm.swap a b l)

theorem sortPairs_perm : ∀ l : EdgeIndex, (sortPairs l).Perm l
  | [] => List.Perm.refl _
  | a :: l => (insertPair_perm a (sortPairs l)).trans ((sortPairs_perm l).cons a)

theorem sortEdgeIndex_perm (l : EdgeIndex) : (sortEdgeIndex l).Perm l :=
  sortPairs_perm l

theorem mem_to_undirected {c : ℕ × ℕ} {l : EdgeIndex} :
    c ∈ to_undirected l ↔ c ∈ l ∨ c ∈ l.map Prod.swap := by
  unfold to_undirected
  rw [List.mem_dedup, (sortPairs_perm _).mem_iff, List.mem_append]

/-- The output of `to_undirected` is closed under edge reversal. -/
theorem to_undirected_symm {l : EdgeIndex} {u v : ℕ}
    (h : (u, v) ∈ to_undirected l) : (v, u) ∈ to_undirected l := by
  rcases mem_to_undirected.mp h with h' | h'
  · exact mem_to_undirected.mpr (Or.inr (by
      exact List.mem_map.mpr ⟨(u, v), h', rfl⟩))
  · rcases List.mem_map.mp h' with ⟨⟨a, b⟩, hab, hswap⟩
    have hba : b = u ∧ a = v := by
      simpa [Prod.swap, Prod.ext_iff] using hswap
    exact mem_to_undirected.mpr (Or.inl (by simpa [hba.1, hba.2] using hab))

theorem pathSorted_length (ei : EdgeIndex) (b : Bool) :
    (pathSorted ei b).length = ei.length := by
  cases b
  · show (sortEdgeIndex ei).length = ei.length
    exact (sortEdgeIndex_perm ei).length_eq
  · rfl

/-- Inversion for `applyEdgeMask`: a successful call partitions `sorted`
by some boolean mask of the same length as the initial `edge_mask`. -/
theorem applyEdgeMask_ok {sorted : EdgeIndex} {m0 : List Bool}
    {ids : List ℕ} {rem msk : EdgeIndex}
    (h : applyEdgeMask sorted m0 ids = .ok (rem, .edges msk)) :
    ∃ m : List Bool, m.length = m0.length ∧
      rem = maskSel sorted m ∧ msk = maskSel sorted (m.map Bool.not) := by
  unfold applyEdgeMask at h
  split at h
  · simp only [Except.ok.injEq, Prod.mk.injEq, MaskOut.edges.injEq] at h
    exact ⟨ids.foldl (fun m i => m.set i false) m0,
      foldl_set_length ids m0, h.1.symm, h.2.symm⟩
  · exact absurd h (by simp)

/-- A successful `applyEdgeMask` always carries `.edges`, never `.mask`. -/
theorem applyEdgeMask_ok_shape {sorted : EdgeIndex} {m0 : List Bool}
    {ids : List ℕ} {pr : EdgeIndex × MaskOut}
    (h : applyEdgeMask sorted m0 ids = .ok pr) :
    ∃ es, pr.2 = .edges es := by
  unfold applyEdgeMask at h
  split at h
  · exact ⟨_, (by injection h with h'; rw [← h'])⟩
  · exact absurd h (by simp)

/-- Inversion for `mask_path`: a result carrying masked edge columns can
only come from the training branch, i.e. from `applyEdgeMask` applied to
the sorted edge index, the fresh all-true mask and the collected walk
entries. -/
theorem mask_path_ok_edges {ei : EdgeIndex} {p : ℚ} {W L : ℕ}
    {nn : Option ℕ} {sm : String} {iss tr : Bool} {r : PathRand}
    {rem msk : EdgeIndex}
    (h : mask_path ei p W L nn sm iss tr r = .ok (rem, .edges msk)) :
    applyEdgeMask (pathSorted ei iss) (List.replicate ei.length true)
      (pathEIds ei p W L nn sm iss r) = .ok (rem, .edges msk) := by
  unfold mask_path at h
  split at h
  · exact absurd h (by simp)
  · split at h
    · exact absurd h (by simp)
    · split at h
      · exfalso
        injection h with h'
        injection h' with h1 h2
        exact MaskOut.noConfusion h2
      · exact h

theorem pathSorted_false (ei : EdgeIndex) :
    pathSorted ei false = sortEdgeIndex ei := rfl

/-! ### Claim theorems -/

/-- Claim C1 (code bug): the claim says every column routed to
`masked_edges` is an out-edge of some node visited during a walk.  On the
4-edge graph `0→1, 1→0, 1→3, 2→3` with `p = 1/4`, one start node
(realized as node 2), one walk of length 1, the walk visits exactly nodes
2 and 3, yet the masked set is the single column `(1, 3)` — an out-edge
of node 1, which is never visited.  The cause: line 80 appends the
current NODE id to `e_id` instead of the traversed edge's position, so
line 87 masks edge positions equal to visited node ids. -/
theorem mask_path_masks_unvisited_source_c1 :
    mask_path [((0:ℕ),(1:ℕ)), (1,0), (1,3), (2,3)] (1/4) 1 1 none "node"
        false true ⟨[2,0,1,3], [], fun _ => 0⟩
      = .ok ([(0,1), (1,0), (2,3)], .edges [(1,3)]) ∧
    pathVisitedNodes [((0:ℕ),(1:ℕ)), (1,0), (1,3), (2,3)] (1/4) 1 1 none
        "node" false ⟨[2,0,1,3], [], fun _ => 0⟩ = [2, 3] ∧
    (1 : ℕ) ∉ ([2, 3] : List ℕ) := by
  have hq : (1/4 : ℚ) = mkRat 1 4 := by rw [Rat.mkRat_eq_div]; norm_num
  rw [hq]
  exact ⟨by decide, by decide, by decide⟩

/-- Claim C2 (confirmed): for every duplicate-free edge index and every
realization of the random choices, whenever `mask_path` (training, `p > 0`,
so the masked output carries edge columns) returns, its two edge tensors
are column-disjoint and together are exactly the columns of the
source-sorted edge index; likewise `mask_edge`'s two tensors partition the
original edge index. -/
theorem mask_partition_c2 (ei : EdgeIndex) (hnd : ei.Nodup) (p : ℚ)
    (W L : ℕ) (nn : Option ℕ) (sm : String) (r : PathRand)
    (bern : List Bool) :
    (∀ rem msk : EdgeIndex,
       mask_path ei p W L nn sm false true r = .ok (rem, .edges msk) →
       (rem ++ msk).Perm (sortEdgeIndex ei) ∧ ∀ c ∈ rem, c ∉ msk) ∧
    (∀ rem msk : EdgeIndex, bern.length = ei.length →
       mask_edge ei p bern = .ok (rem, msk) →
       (rem ++ msk).Perm ei ∧ ∀ c ∈ rem, c ∉ msk) := by
  have hb : (bern.map Bool.not).map Bool.not = bern := by
    simp [List.map_map, Function.comp_def, Bool.not_not]
  constructor
  · intro rem msk h
    obtain ⟨m, hm, hrem, hmsk⟩ := applyEdgeMask_ok (mask_path_ok_edges h)
    subst hrem hmsk
    have hsnd : (pathSorted ei false).Nodup := by
      rw [pathSorted_false]
      exact ((sortEdgeIndex_perm ei).nodup_iff).mpr hnd
    have hlen : m.length = (pathSorted ei false).length := by
      rw [pathSorted_length]
      simpa using hm
    refine ⟨?_, fun c hc => maskSel_not_disjoint hsnd hc⟩
    rw [← pathSorted_false ei]
    exact maskSel_append_not_perm (pathSorted ei false) m hlen
  · intro rem msk hlen h
    unfold mask_edge at h
    split at h
    · exact absurd h (by simp)
    · simp only [Except.ok.injEq, Prod.mk.injEq] at h
      obtain ⟨h1, h2⟩ := h
      subst h1 h2
      constructor
      · have hperm := maskSel_append_not_perm ei (bern.map Bool.not)
          (by simpa using hlen)
        rwa [hb] at hperm
      · intro c hc
        have hd := maskSel_not_disjoint (m := bern.map Bool.not) hnd hc
        rwa [hb] at hd

/-- Witness for C2 at a concrete input: the single-edge graph `0→1` with
`p = 1`, one walk of length 1 from node 0; the walk masks the only edge,
and the returned partition `([], [(0,1)])` recombines to the sorted edge
index disjointly. -/
theorem mask_partition_c2_witness :
    ([((0:ℕ),(1:ℕ))] : EdgeIndex).Nodup ∧
    ((([] : EdgeIndex) ++ [((0:ℕ),(1:ℕ))]).Perm
        (sortEdgeIndex [((0:ℕ),(1:ℕ))]) ∧
      ∀ c ∈ ([] : EdgeIndex), c ∉ ([((0:ℕ),(1:ℕ))] : EdgeIndex)) :=
  ⟨by decide,
    (mask_partition_c2 [((0:ℕ),(1:ℕ))] (by decide) 1 1 1 none "node"
        ⟨[0], [], fun _ => 0⟩ []).1 [] [((0:ℕ),(1:ℕ))] (by decide)⟩

/-- Claim C3 (code bug): the claim says `mask_path` with valid arguments
always returns normally and every index used to update the boolean edge
mask is in bounds.  On the single-edge graph `1→0` with `p = 1` the walk
from node 1 appends node id 1 to `e_id`, and `edge_mask[e_id] = False`
indexes position 1 of a length-1 mask: the call raises `IndexError`. -/
theorem mask_path_index_error_c3 :
    mask_path [((1:ℕ),(0:ℕ))] 1 1 3 none "node" false true
        ⟨[1, 0], [], fun _ => 0⟩
      = .error .indexError := by decide

/-- Claim C4 (code bug): the claim says `mask_path` performs exactly
`walks_per_node * round(p * N)` walks.  The `start` tensor is already
tiled `walks_per_node` times (line 63) and the loop of line 71 iterates
over it another `walks_per_node` times, so on the 2-cycle with `p = 1`
and `walks_per_node = 2` the walk loop runs 8 walks where the claim says
`walks_per_node * round(num_nodes * p) = 2 * round(2 * 1) = 4`. -/
theorem mask_path_walk_count_c4 :
    (pathWalkSeq (pathStarts (pathSorted [((0:ℕ),(1:ℕ)), (1,0)] false) 1 2 2
        "node" ⟨[0, 1], [], fun _ => 0⟩) 2).length = 8 ∧
    2 * startCount 2 1 = 4 ∧ (8 : ℕ) ≠ 4 :=
  ⟨by decide, by decide, by decide⟩

/-- Counterexample to claim C5 as stated: the claim asserts that
`mask_path` with `training = False` returns the identity result for EVERY
`p`, including `p` outside `[0, 1]`; but the probability check of line 42
runs before the training bypass of line 50, so `p = 2` with
`training = False` raises `ValueError` instead of returning. -/
theorem mask_path_invalid_p_not_bypassed_c5 :
    mask_path [((0:ℕ),(1:ℕ))] 2 1 3 none "node" false false
        ⟨[], [], fun _ => 0⟩
      = .error .invalidArgument := by decide

/-- Claim C5 (amended): for every `p` in `[0, 1]` and a valid start mode,
`mask_path` with `training = False` (and likewise with `p = 0`) returns
the input edge index unchanged together with an all-true boolean mask of
length `E`, raising no error. -/
theorem mask_path_bypass_identity_c5 (ei : EdgeIndex) (p : ℚ) (W L : ℕ)
    (nn : Option ℕ) (sm : String) (iss tr : Bool) (r : PathRand)
    (hp0 : 0 ≤ p) (hp1 : p ≤ 1) (hsm : sm = "node" ∨ sm = "edge")
    (htr : tr = false ∨ p = 0) :
    mask_path ei p W L nn sm iss tr r
      = .ok (ei, .mask (List.replicate ei.length true)) := by
  unfold mask_path
  rw [if_neg (show ¬(p < 0 ∨ 1 < p) by push_neg; exact ⟨hp0, hp1⟩),
    if_neg (not_not_intro hsm), if_pos htr]

/-- Witness for the amended C5 at a concrete input: evaluation mode on the
single-edge graph returns the edge index and the all-true mask. -/
theorem mask_path_bypass_identity_c5_witness :
    (0 ≤ (1/2 : ℚ)) ∧ ((1/2 : ℚ) ≤ 1) ∧
    mask_path [((0:ℕ),(1:ℕ))] (1/2) 1 3 none "node" false false
        ⟨[], [], fun _ => 0⟩
      = .ok ([((0:ℕ),(1:ℕ))], .mask (List.replicate 1 true)) :=
  ⟨by norm_num, by norm_num,
    mask_path_bypass_identity_c5 [((0:ℕ),(1:ℕ))] (1/2) 1 3 none "node"
      false false ⟨[], [], fun _ => 0⟩ (by norm_num) (by norm_num)
      (Or.inl rfl) (Or.inl rfl)⟩

/-- Claim C6 (confirmed): for any probability outside `[0, 1]`, each of
`mask_node_features`, `mask_path` (with `training = True`) and `mask_edge`
fails with the invalid-argument error kind; the check is the first branch
of each function, so the result is this error for every realization of
the random draws — a failed call has no observable side effect. -/
theorem prob_validation_c6 (p : ℚ) (hp : p < 0 ∨ 1 < p)
    (x : List (List ℚ)) (bernN : List Bool) (ei : EdgeIndex) (W L : ℕ)
    (nn : Option ℕ) (sm : String) (iss : Bool) (r : PathRand)
    (bernE : List Bool) :
    mask_node_features x p bernN = .error .invalidArgument ∧
    mask_path ei p W L nn sm iss true r = .error .invalidArgument ∧
    mask_edge ei p bernE = .error .invalidArgument := by
  unfold mask_node_features mask_path mask_edge
  simp only [if_pos hp]
  exact ⟨trivial, trivial, trivial⟩

/-- Witness for C6 at `p = 2`. -/
theorem prob_validation_c6_witness :
    ((2:ℚ) < 0 ∨ 1 < (2:ℚ)) ∧
    mask_path [((0:ℕ),(1:ℕ))] 2 1 3 none "node" false true
        ⟨[], [], fun _ => 0⟩
      = .error .invalidArgument :=
  ⟨Or.inr (by norm_num),
    (prob_validation_c6 2 (Or.inr (by norm_num)) [] [] [((0:ℕ),(1:ℕ))] 1 3
      none "node" false ⟨[], [], fun _ => 0⟩ []).2.1⟩

/-- Counterexample to claim C7 as stated: an unrecognized start mode makes
`mask_path` fail via the `assert` of line 46, i.e. with `AssertionError`
— a different exception kind from the `ValueError` (the invalid-argument
kind) that out-of-range probabilities raise. -/
theorem mask_path_bad_start_eval_c7 :
    mask_path [((0:ℕ),(1:ℕ))] 1 1 3 none "walk" false true
        ⟨[], [], fun _ => 0⟩
      = .error .assertionError ∧
    PyError.assertionError ≠ PyError.invalidArgument :=
  ⟨by decide, by decide⟩

/-- Claim C7 (amended): for every edge index, every `p` in `[0, 1]` and
every start argument that is neither `node` nor `edge`, `mask_path` fails
with an assertion failure (`AssertionError`), not with the
invalid-argument kind used for probability validation. -/
theorem mask_path_bad_start_error_kind_c7 (ei : EdgeIndex) (p : ℚ)
    (W L : ℕ) (nn : Option ℕ) (sm : String) (iss tr : Bool) (r : PathRand)
    (hp0 : 0 ≤ p) (hp1 : p ≤ 1) (h1 : sm ≠ "node") (h2 : sm ≠ "edge") :
    mask_path ei p W L nn sm iss tr r = .error .assertionError := by
  unfold mask_path
  rw [if_neg (show ¬(p < 0 ∨ 1 < p) by push_neg; exact ⟨hp0, hp1⟩),
    if_pos (show ¬(sm = "node" ∨ sm = "edge") from fun h => h.elim h1 h2)]

/-- Witness for the amended C7 with start mode `walk`. -/
theorem mask_path_bad_start_error_kind_c7_witness :
    ("walk" ≠ "node") ∧ ("walk" ≠ "edge") ∧
    mask_path [((0:ℕ),(1:ℕ))] 1 1 3 none "walk" false true
        ⟨[], [], fun _ => 0⟩
      = .error .assertionError :=
  ⟨by decide, by decide,
    mask_path_bad_start_error_kind_c7 [((0:ℕ),(1:ℕ))] 1 1 3 none "walk"
      false true ⟨[], [], fun _ => 0⟩ (by norm_num) (by norm_num)
      (by decide) (by decide)⟩

/-- Claim C8 (confirmed): for every edge index and every Bernoulli
realization of matching length, `mask_edge` with `p = 0` returns the input
edge index exactly (order preserved) and an empty masked set, and with
`p = 1` returns an empty remaining set and a masked set equal to the
input (here even exactly, hence as a set). -/
theorem mask_edge_endpoints_c8 (ei : EdgeIndex) :
    (∀ bern : List Bool, bern.length = ei.length → validBernoulli 0 bern →
       mask_edge ei 0 bern = .ok (ei, [])) ∧
    (∀ bern : List Bool, bern.length = ei.length → validBernoulli 1 bern →
       mask_edge ei 1 bern = .ok ([], ei)) := by
  constructor
  · intro bern hlen hv
    have hf : ∀ b ∈ bern, b = false := hv.1 rfl
    unfold mask_edge
    rw [if_neg (by norm_num : ¬((0:ℚ) < 0 ∨ 1 < (0:ℚ)))]
    have ht : ∀ b ∈ bern.map Bool.not, b = true := by
      intro b hb
      rcases List.mem_map.mp hb with ⟨a, ha, rfl⟩
      simp [hf a ha]
    rw [maskSel_all_true ei (bern.map Bool.not) (by simpa using hlen) ht,
      maskSel_all_false ei bern hf]
  · intro bern hlen hv
    have ht : ∀ b ∈ bern, b = true := hv.2 rfl
    unfold mask_edge
    rw [if_neg (by norm_num : ¬((1:ℚ) < 0 ∨ 1 < (1:ℚ)))]
    have hf : ∀ b ∈ bern.map Bool.not, b = false := by
      intro b hb
      rcases List.mem_map.mp hb with ⟨a, ha, rfl⟩
      simp [ht a ha]
    rw [maskSel_all_false ei (bern.map Bool.not) hf,
      maskSel_all_true ei bern hlen ht]

/-- Witness for C8 on the single-edge graph. -/
theorem mask_edge_endpoints_c8_witness :
    (([false] : List Bool).length = ([((0:ℕ),(1:ℕ))] : EdgeIndex).length ∧
      mask_edge [((0:ℕ),(1:ℕ))] 0 [false] = .ok ([((0:ℕ),(1:ℕ))], [])) ∧
    (([true] : List Bool).length = ([((0:ℕ),(1:ℕ))] : EdgeIndex).length ∧
      mask_edge [((0:ℕ),(1:ℕ))] 1 [true] = .ok ([], [((0:ℕ),(1:ℕ))])) :=
  ⟨⟨rfl, (mask_edge_endpoints_c8 [((0:ℕ),(1:ℕ))]).1 [false] rfl
      ⟨fun _ b hb => by simpa using hb, fun h => absurd h (by norm_num)⟩⟩,
    ⟨rfl, (mask_edge_endpoints_c8 [((0:ℕ),(1:ℕ))]).2 [true] rfl
      ⟨fun h => absurd h (by norm_num), fun _ b hb => by simpa using hb⟩⟩⟩

/-- Claim C9 (confirmed): whenever `MaskPath.forward` or `MaskEdge.forward`
with `undirected = True` returns, the remaining edge set is closed under
reversal, and the masked component is exactly what the underlying masking
function computed — it is not symmetrized. -/
theorem forward_undirected_symm_c9 (p : ℚ) (W L : ℕ) (sm : String)
    (nn : Option ℕ) (ei : EdgeIndex) (r : PathRand) (bern : List Bool) :
    (∀ (rem : EdgeIndex) (msk : MaskOut),
       MaskPathForward p W L sm nn true ei r = .ok (rem, msk) →
       (∀ u v : ℕ, (u, v) ∈ rem → (v, u) ∈ rem) ∧
       ∃ rem₀, mask_path ei p W L nn sm false true r = .ok (rem₀, msk)) ∧
    (∀ rem msk : EdgeIndex,
       MaskEdgeForward p true ei bern = .ok (rem, msk) →
       (∀ u v : ℕ, (u, v) ∈ rem → (v, u) ∈ rem) ∧
       ∃ rem₀, mask_edge ei p bern = .ok (rem₀, msk)) := by
  constructor
  · intro rem msk h
    unfold MaskPathForward at h
    cases hmp : mask_path ei p W L nn sm false true r with
    | error e =>
      rw [hmp] at h
      exact absurd h (by simp [Except.map])
    | ok val =>
      obtain ⟨a, b⟩ := val
      rw [hmp] at h
      simp only [Except.map, if_pos rfl, Except.ok.injEq, Prod.mk.injEq] at h
      obtain ⟨h1, h2⟩ := h
      subst h1 h2
      exact ⟨fun u v hm => to_undirected_symm hm, ⟨a, rfl⟩⟩
  · intro rem msk h
    unfold MaskEdgeForward at h
    cases hme : mask_edge ei p bern with
    | error e =>
      rw [hme] at h
      exact absurd h (by simp [Except.map])
    | ok val =>
      obtain ⟨a, b⟩ := val
      rw [hme] at h
      simp only [Except.map, if_pos rfl, Except.ok.injEq, Prod.mk.injEq] at h
      obtain ⟨h1, h2⟩ := h
      subst h1 h2
      exact ⟨fun u v hm => to_undirected_symm hm, ⟨a, rfl⟩⟩

/-- Witness for C9: `MaskEdge.forward` with `p = 0` keeps the single edge
`0→1` and the symmetrized remaining set contains its reversal `1→0`. -/
theorem forward_undirected_symm_c9_witness :
    MaskEdgeForward 0 true [((0:ℕ),(1:ℕ))] [false]
      = .ok ([(0,1), (1,0)], []) ∧
    ((1:ℕ), (0:ℕ)) ∈ ([((0:ℕ),(1:ℕ)), (1,0)] : EdgeIndex) :=
  ⟨by decide,
    ((forward_undirected_symm_c9 0 1 3 "node" none [((0:ℕ),(1:ℕ))]
        ⟨[], [], fun _ => 0⟩ [false]).2 [(0,1), (1,0)] [] (by decide)).1
      0 1 (by decide)⟩

/-- Claim C10 (confirmed): when `mask_path` returns, the second component
is the all-true boolean edge mask of length `E` exactly when
`training = False` or `p = 0`, and in the training path (`training = True`
and `p ≠ 0`) it is always a tensor of masked edge columns — the boolean
mask is never returned there. -/
theorem mask_path_output_shape_c10 (ei : EdgeIndex) (p : ℚ) (W L : ℕ)
    (nn : Option ℕ) (sm : String) (iss tr : Bool) (r : PathRand)
    (rem : EdgeIndex) (out : MaskOut)
    (h : mask_path ei p W L nn sm iss tr r = .ok (rem, out)) :
    ((tr = false ∨ p = 0) → out = .mask (List.replicate ei.length true)) ∧
    ((tr = true ∧ p ≠ 0) → ∃ es, out = .edges es) := by
  unfold mask_path at h
  split at h
  · exact absurd h (by simp)
  · split at h
    · exact absurd h (by simp)
    · split at h
      · rename_i hc
        simp only [Except.ok.injEq, Prod.mk.injEq] at h
        refine ⟨fun _ => h.2.symm, fun hcon => ?_⟩
        rcases hc with hc' | hc'
        · rw [hcon.1] at hc'
          exact absurd hc' (by simp)
        · exact absurd hc' hcon.2
      · rename_i hc
        refine ⟨fun hcon => absurd hcon hc, fun _ => ?_⟩
        obtain ⟨es, hes⟩ := applyEdgeMask_ok_shape h
        exact ⟨es, hes⟩

/-- Witness for C10: the evaluation-mode call returns the all-true mask. -/
theorem mask_path_output_shape_c10_witness :
    mask_path [((0:ℕ),(1:ℕ))] 1 1 3 none "node" false false
        ⟨[], [], fun _ => 0⟩
      = .ok ([((0:ℕ),(1:ℕ))], .mask [true]) ∧
    MaskOut.mask [true] = .mask (List.replicate 1 true) :=
  ⟨by decide,
    (mask_path_output_shape_c10 [((0:ℕ),(1:ℕ))] 1 1 3 none "node" false
      false ⟨[], [], fun _ => 0⟩ [((0:ℕ),(1:ℕ))] (.mask [true])
      (by decide)).1 (Or.inl rfl)⟩

end SDMGAE
